import Mathlib

/-!
Shallow embedding of a two-tape byte-oriented esoteric-language interpreter
(a growable cursor-addressed `Tape`, a `Program` owning an instruction tape
and a memory tape, a bracket-scan jump algorithm, and a fetch-execute-advance
loop), together with proofs of the specified properties.

Machine integers: memory cells are `u8` values modelled as `Nat` with explicit
`% 256` wraparound; tape cursors are `usize` modelled as `Nat`, with the
unchecked decrement of `mv_left` modelled as a fault when the cursor is `0`.
Fallible operations (out-of-bounds indexing, cursor underflow, malformed
numeric input) return `Option` / a `Res` result with an explicit `fault`
outcome; loops that the source runs without bound (the bracket scans and
`run`) take an explicit fuel argument, with a distinct `timeout` outcome so
that running out of fuel is never conflated with a fault.
-/

/-- The nine instruction variants of the language (`Operation` in the source). -/
inductive Operation : Type where
  | MoveRight
  | MoveLeft
  | Increment
  | Decrement
  | Output
  | Input
  | JumpForward
  | JumpBack
  | NoOp
deriving DecidableEq

/-- Default instruction is the no-op (the `Default` impl in the source). -/
instance : Inhabited Operation := ⟨Operation.NoOp⟩

/-- Mapping from a source symbol to an instruction (`From<char> for Operation`). -/
def Operation.fromChar (c : Char) : Operation :=
  match c with
  | '>' => Operation.MoveRight
  | '<' => Operation.MoveLeft
  | '+' => Operation.Increment
  | '-' => Operation.Decrement
  | '.' => Operation.Output
  | ',' => Operation.Input
  | '[' => Operation.JumpForward
  | ']' => Operation.JumpBack
  | _ => Operation.NoOp

/-- Program loading (`parse` in the source): map each symbol to an instruction
and drop the `NoOp` results. -/
def parseOps (s : List Char) : List Operation :=
  (s.map Operation.fromChar).filter (fun op => op ≠ Operation.NoOp)

/-- A growable cursor-addressed sequence (`Tape<T>` in the source). -/
structure Tape (T : Type) : Type where
  cursor : Nat
  data : List T
deriving DecidableEq

/-- Tape construction (`Tape::new`): cursor starts at 0. -/
def Tape.new {T : Type} (data : List T) : Tape T :=
  { cursor := 0, data := data }

/-- `Vec::resize_with(new_len, default)`: truncate or pad with the default. -/
def resize_with {T : Type} (l : List T) (n : Nat) (d : T) : List T :=
  if n ≤ l.length then l.take n else l ++ List.replicate (n - l.length) d

/-- `Tape::mv_right`: increment the cursor; if it is now at or past the end,
resize the backing data to double its length, filling with the default. -/
def Tape.mv_right {T : Type} [Inhabited T] (t : Tape T) : Tape T :=
  if t.cursor + 1 ≥ t.data.length then
    { cursor := t.cursor + 1,
      data := resize_with t.data (t.data.length * 2) default }
  else
    { cursor := t.cursor + 1, data := t.data }

/-- `Tape::mv_left`: decrement the cursor. The source performs an unchecked
`usize` subtraction; the underflow at cursor 0 is modelled as a fault
(`none`). -/
def Tape.mv_left {T : Type} (t : Tape T) : Option (Tape T) :=
  if t.cursor = 0 then none
  else some { cursor := t.cursor - 1, data := t.data }

/-- `Tape::cell`: read the element under the cursor; an out-of-bounds index
is a fault (`none`). -/
def Tape.cell {T : Type} (t : Tape T) : Option T :=
  t.data.get? t.cursor

/-- Writing through `Tape::cell_mut`: replace the element under the cursor;
an out-of-bounds index is a fault (`none`). -/
def Tape.write {T : Type} (t : Tape T) (v : T) : Option (Tape T) :=
  if t.cursor < t.data.length then
    some { cursor := t.cursor, data := t.data.set t.cursor v }
  else none

/-- `u8::wrapping_add` on cell values modelled as naturals below 256. -/
def wrapping_add (a b : Nat) : Nat :=
  (a + b) % 256

/-- `u8::wrapping_sub` on cell values modelled as naturals below 256. -/
def wrapping_sub (a b : Nat) : Nat :=
  (a + (256 - b % 256)) % 256

/-- The interpreter state (`Program` in the source): one instruction tape and
one memory tape. -/
structure Program : Type where
  ops : Tape Operation
  memory : Tape Nat
deriving DecidableEq

/-- `Program::new`: the instruction tape is exactly the parsed program; the
memory tape starts as 512 zeroed cells. -/
def Program.new (program : List Operation) : Program :=
  { ops := Tape.new program, memory := Tape.new (List.replicate 512 0) }

/-- `Program::inc` (bf `+`): wrapping-add 1 to the current memory cell. -/
def Program.inc (p : Program) : Option Program :=
  match p.memory.cell with
  | none => none
  | some v => (p.memory.write (wrapping_add v 1)).map fun m => { p with memory := m }

/-- `Program::dec` (bf `-`): wrapping-subtract 1 from the current memory cell. -/
def Program.dec (p : Program) : Option Program :=
  match p.memory.cell with
  | none => none
  | some v => (p.memory.write (wrapping_sub v 1)).map fun m => { p with memory := m }

/-- `Program::mvl` (bf `<`): move the memory cursor left. -/
def Program.mvl (p : Program) : Option Program :=
  (p.memory.mv_left).map fun m => { p with memory := m }

/-- `Program::mvr` (bf `>`): move the memory cursor right. -/
def Program.mvr (p : Program) : Program :=
  { p with memory := p.memory.mv_right }

/-- `Program::prt` (bf `.`): read the current memory cell for output. -/
def Program.prt (p : Program) : Option Nat :=
  p.memory.cell

/-- Result of a fallible, fuelled computation: a normal result, a fault
(a panic in the source), or fuel exhaustion (the source loops on). -/
inductive Res (α : Type) : Type where
  | ok : α → Res α
  | fault : Res α
  | timeout : Res α
deriving DecidableEq

/-- Map a function over the `ok` outcome of a `Res`. -/
def Res.map {α β : Type} (f : α → β) : Res α → Res β
  | Res.ok a => Res.ok (f a)
  | Res.fault => Res.fault
  | Res.timeout => Res.timeout

/-- Lift an `Option` (fallible operation) into `Res`, sending `none` to
`fault`. -/
def Res.ofOption {α : Type} : Option α → Res α
  | none => Res.fault
  | some a => Res.ok a

/-- The forward-scan loop body of `Program::jpf`: while the counter is
positive, move the instruction cursor right, incrementing the counter on a
jump-forward and decrementing it on a jump-back. -/
def jpf_loop : Nat → Tape Operation → Nat → Res (Tape Operation)
  | _, t, 0 => Res.ok t
  | 0, _, _ + 1 => Res.timeout
  | fuel + 1, t, count + 1 =>
    let t2 := t.mv_right
    match t2.cell with
    | none => Res.fault
    | some op =>
      jpf_loop fuel t2
        (if op = Operation.JumpForward then count + 2
         else if op = Operation.JumpBack then count
         else count + 1)

/-- The backward-scan loop body of `Program::jpb`: while the counter is
positive, move the instruction cursor left, incrementing the counter on a
jump-back and decrementing it on a jump-forward. -/
def jpb_loop : Nat → Tape Operation → Nat → Res (Tape Operation)
  | _, t, 0 => Res.ok t
  | 0, _, _ + 1 => Res.timeout
  | fuel + 1, t, count + 1 =>
    match t.mv_left with
    | none => Res.fault
    | some t2 =>
      match t2.cell with
      | none => Res.fault
      | some op =>
        jpb_loop fuel t2
          (if op = Operation.JumpBack then count + 2
           else if op = Operation.JumpForward then count
           else count + 1)

/-- `Program::jpf` (bf `[`): if the current memory cell is 0, scan forward
for the matching jump-back with a nesting counter started at 1. -/
def Program.jpf (fuel : Nat) (p : Program) : Res Program :=
  match p.memory.cell with
  | none => Res.fault
  | some v =>
    if v = 0 then
      (jpf_loop fuel p.ops 1).map fun t => { p with ops := t }
    else Res.ok p

/-- `Program::jpb` (bf `]`): if the current memory cell is nonzero, scan
backward for the matching jump-forward with a nesting counter started at 1. -/
def Program.jpb (fuel : Nat) (p : Program) : Res Program :=
  match p.memory.cell with
  | none => Res.fault
  | some v =>
    if v ≠ 0 then
      (jpb_loop fuel p.ops 1).map fun t => { p with ops := t }
    else Res.ok p

/-- Whitespace recognizer used by trimming: the Unicode `White_Space`
characters, as recognized by the source's `char::is_whitespace`
(U+0009..U+000D, U+0020, U+0085, U+00A0, U+1680, U+2000..U+200A, U+2028,
U+2029, U+202F, U+205F, U+3000). -/
def isSpaceChar (c : Char) : Bool :=
  (0x09 <= c.toNat && c.toNat <= 0x0D) || c.toNat = 0x20 ||
  c.toNat = 0x85 || c.toNat = 0xA0 || c.toNat = 0x1680 ||
  (0x2000 <= c.toNat && c.toNat <= 0x200A) ||
  c.toNat = 0x2028 || c.toNat = 0x2029 || c.toNat = 0x202F ||
  c.toNat = 0x205F || c.toNat = 0x3000

/-- `str::trim`: drop whitespace from both ends of the line. -/
def trimChars (s : List Char) : List Char :=
  ((s.dropWhile isSpaceChar).reverse.dropWhile isSpaceChar).reverse

/-- Decimal digit recognizer: `some` of the digit's value, else `none`. -/
def digitVal (c : Char) : Option Nat :=
  if '0' ≤ c ∧ c ≤ '9' then some (c.toNat - 48) else none

/-- Digit-accumulation loop of `u8` parsing, positive case: multiply the
accumulator by 10 and add the digit, failing on anything above 255 (the
checked arithmetic of the source's `str::parse::<u8>`). -/
def parseDigitsPos : List Char → Nat → Option Nat
  | [], acc => some acc
  | c :: cs, acc =>
    match digitVal c with
    | none => none
    | some d =>
      if acc * 10 ≤ 255 then
        if acc * 10 + d ≤ 255 then parseDigitsPos cs (acc * 10 + d) else none
      else none

/-- `str::parse::<u8>`: an optional `+` sign followed by at least one decimal
digit, with value in `[0, 255]`. For the unsigned `u8` no `-` sign is ever
stripped, so a leading `-` falls into the digit loop and fails as an invalid
digit. -/
def parse_u8 : List Char → Option Nat
  | [] => none
  | c :: cs =>
    if c = '+' then if cs.isEmpty then none else parseDigitsPos cs 0
    else parseDigitsPos (c :: cs) 0

/-- `Program::inp` (bf `,`) applied to one already-read line: trim it, parse
it as a decimal byte, and store the value in the current memory cell; a
malformed line is a fault (`none`), as is an out-of-bounds cell. -/
def Program.inp (p : Program) (line : List Char) : Option Program :=
  match parse_u8 (trimChars line) with
  | none => none
  | some v => (p.memory.write v).map fun m => { p with memory := m }

/-- A machine configuration: the interpreter state plus its two I/O
collaborators (remaining stdin lines, bytes written to stdout). -/
structure Config : Type where
  prog : Program
  stdin : List (List Char)
  stdout : List Nat
deriving DecidableEq

/-- `Program::operate`: dispatch on the instruction under the instruction
cursor and perform exactly one operation. -/
def Program.operate (fuel : Nat) (c : Config) : Res Config :=
  match c.prog.ops.cell with
  | none => Res.fault
  | some Operation.Increment =>
    Res.ofOption ((c.prog.inc).map fun p => { c with prog := p })
  | some Operation.Decrement =>
    Res.ofOption ((c.prog.dec).map fun p => { c with prog := p })
  | some Operation.MoveLeft =>
    Res.ofOption ((c.prog.mvl).map fun p => { c with prog := p })
  | some Operation.MoveRight => Res.ok { c with prog := c.prog.mvr }
  | some Operation.Output =>
    Res.ofOption ((c.prog.prt).map fun v => { c with stdout := c.stdout ++ [v] })
  | some Operation.Input =>
    match c.stdin with
    | [] => Res.fault
    | line :: rest =>
      Res.ofOption ((c.prog.inp line).map fun p =>
        { c with prog := p, stdin := rest })
  | some Operation.JumpForward =>
    (Program.jpf fuel c.prog).map fun p => { c with prog := p }
  | some Operation.JumpBack =>
    (Program.jpb fuel c.prog).map fun p => { c with prog := p }
  | some Operation.NoOp => Res.ok c

/-- `Program::step`: execute the current operation, then unconditionally move
the instruction cursor right. -/
def Program.step (fuel : Nat) (c : Config) : Res Config :=
  (Program.operate fuel c).map fun c2 =>
    { c2 with prog := { c2.prog with ops := c2.prog.ops.mv_right } }

/-- `Program::run`: step repeatedly while the instruction under the
instruction cursor is not the no-op. -/
def Program.run : Nat → Config → Res Config
  | 0, _ => Res.timeout
  | fuel + 1, c =>
    match c.prog.ops.cell with
    | none => Res.fault
    | some op =>
      if op = Operation.NoOp then Res.ok c
      else
        match Program.step fuel c with
        | Res.ok c2 => Program.run fuel c2
        | Res.fault => Res.fault
        | Res.timeout => Res.timeout

/-- Contribution of one instruction to the bracket-nesting count. -/
def opDelta : Operation → Int
  | Operation.JumpForward => 1
  | Operation.JumpBack => -1
  | _ => 0

/-- Number of jump-forwards minus number of jump-backs in a list. -/
def balInt (l : List Operation) : Int :=
  (l.count Operation.JumpForward : Int) - (l.count Operation.JumpBack : Int)

/-- The segment of `L` at positions `a ≤ p < b`. -/
def seg (L : List Operation) (a b : Nat) : List Operation :=
  (L.take b).drop a

/-- Bracket balance of the segment at positions `a ≤ p < b`. -/
def segBal (L : List Operation) (a b : Nat) : Int :=
  balInt (seg L a b)

/-- A balanced instruction list: net bracket count zero, and no prefix closes
more brackets than it opens. -/
def BalancedOps (L : List Operation) : Prop :=
  balInt L = 0 ∧ ∀ n, n ≤ L.length → 0 ≤ balInt (L.take n)

instance decBalancedOps (L : List Operation) : Decidable (BalancedOps L) :=
  inferInstanceAs (Decidable (balInt L = 0 ∧ ∀ n, n ≤ L.length → 0 ≤ balInt (L.take n)))

/-- `j` is the matching jump-back for the jump-forward at `i`: the first
position after `i` where the bracket balance of the segment from `i` returns
to zero. -/
def IsMatchFwd (L : List Operation) (i j : Nat) : Prop :=
  i < j ∧ j < L.length ∧
  L.get? i = some Operation.JumpForward ∧ L.get? j = some Operation.JumpBack ∧
  segBal L i (j + 1) = 0 ∧ ∀ m, i < m → m < j → segBal L i (m + 1) ≠ 0

/-- `k` is the matching jump-forward for the jump-back at `j`: the last
position before `j` where the bracket balance of the segment up to `j`
returns to zero. -/
def IsMatchBack (L : List Operation) (k j : Nat) : Prop :=
  k < j ∧ j < L.length ∧
  L.get? k = some Operation.JumpForward ∧ L.get? j = some Operation.JumpBack ∧
  segBal L k (j + 1) = 0 ∧ ∀ m, k < m → m < j → segBal L m (j + 1) ≠ 0

lemma opDelta_bound (op : Operation) : -1 ≤ opDelta op ∧ opDelta op ≤ 1 := by
  cases op <;> exact ⟨by decide, by decide⟩

lemma opDelta_eq_one (op : Operation) (h : opDelta op = 1) :
    op = Operation.JumpForward := by
  cases op <;> simp_all [opDelta]

lemma opDelta_eq_neg_one (op : Operation) (h : opDelta op = -1) :
    op = Operation.JumpBack := by
  cases op <;> simp_all [opDelta]

lemma balInt_append (l1 l2 : List Operation) :
    balInt (l1 ++ l2) = balInt l1 + balInt l2 := by
  simp only [balInt, List.count_append]
  push_cast
  ring

lemma balInt_singleton (op : Operation) : balInt [op] = opDelta op := by
  cases op <;> decide

lemma seg_self (L : List Operation) (a : Nat) : seg L a a = [] := by
  simp [seg, List.drop_take]

lemma segBal_self (L : List Operation) (a : Nat) : segBal L a a = 0 := by
  simp [segBal, seg_self, balInt]

lemma get?_lt_length {L : List Operation} {n : Nat} {op : Operation}
    (h : L.get? n = some op) : n < L.length := by
  rw [List.get?_eq_getElem?] at h
  exact (List.getElem?_eq_some.mp h).1

lemma seg_succ_right (L : List Operation) (a b : Nat) (op : Operation)
    (hab : a ≤ b) (hb : L.get? b = some op) :
    seg L a (b + 1) = seg L a b ++ [op] := by
  have hblen : b < L.length := get?_lt_length hb
  rw [List.get?_eq_getElem?] at hb
  unfold seg
  rw [List.take_succ, hb]
  have hlen : a ≤ (L.take b).length := by
    rw [List.length_take]
    omega
  rw [List.drop_append_of_le_length hlen]
  rfl

lemma segBal_succ_right (L : List Operation) (a b : Nat) (op : Operation)
    (hab : a ≤ b) (hb : L.get? b = some op) :
    segBal L a (b + 1) = segBal L a b + opDelta op := by
  unfold segBal
  rw [seg_succ_right L a b op hab hb, balInt_append, balInt_singleton]

lemma seg_cons_left (L : List Operation) (a b : Nat) (op : Operation)
    (hab : a < b) (hbl : b ≤ L.length) (ha : L.get? a = some op) :
    seg L a b = op :: seg L (a + 1) b := by
  have h1 : a < (L.take b).length := by
    rw [List.length_take]
    omega
  rw [List.get?_eq_getElem?] at ha
  obtain ⟨hal, hval⟩ := List.getElem?_eq_some.mp ha
  unfold seg
  rw [List.drop_eq_getElem_cons h1, List.getElem_take]
  rw [hval]

lemma segBal_cons_left (L : List Operation) (a b : Nat) (op : Operation)
    (hab : a < b) (hbl : b ≤ L.length) (ha : L.get? a = some op) :
    segBal L a b = opDelta op + segBal L (a + 1) b := by
  unfold segBal
  rw [seg_cons_left L a b op hab hbl ha]
  have : (op :: seg L (a + 1) b) = [op] ++ seg L (a + 1) b := rfl
  rw [this, balInt_append, balInt_singleton]

lemma mv_right_no_grow (L : List Operation) (p : Nat) (h : p + 1 < L.length) :
    Tape.mv_right ⟨p, L⟩ = (⟨p + 1, L⟩ : Tape Operation) := by
  unfold Tape.mv_right
  rw [if_neg]
  show ¬ (p + 1 ≥ L.length)
  omega

lemma cell_of_get? (L : List Operation) (p : Nat) :
    Tape.cell (⟨p, L⟩ : Tape Operation) = L.get? p := rfl

lemma jpf_loop_spec (L : List Operation) (i j : Nat)
    (hjlen : j < L.length) (hzero : segBal L i (j + 1) = 0)
    (hnz : ∀ m, i < m → m < j → segBal L i (m + 1) ≠ 0) :
    ∀ (fuel p c : Nat), i ≤ p → p < j → 1 ≤ c → (c : Int) = segBal L i (p + 1) →
      j - p ≤ fuel → jpf_loop fuel ⟨p, L⟩ c = Res.ok ⟨j, L⟩ := by
  intro fuel
  induction fuel with
  | zero =>
    intro p c h1 h2 h3 h4 h5
    omega
  | succ f ih =>
    intro p c hip hpj hc hcval hfuel
    obtain ⟨c0, rfl⟩ : ∃ c0, c = c0 + 1 := ⟨c - 1, by omega⟩
    have hlt : p + 1 < L.length := by omega
    have hmv : Tape.mv_right ⟨p, L⟩ = (⟨p + 1, L⟩ : Tape Operation) :=
      mv_right_no_grow L p hlt
    obtain ⟨op, hop⟩ : ∃ op, L.get? (p + 1) = some op :=
      ⟨L.get ⟨p + 1, hlt⟩, List.get?_eq_get hlt⟩
    have hcell : Tape.cell (⟨p + 1, L⟩ : Tape Operation) = some op := hop
    have hstep : jpf_loop (f + 1) ⟨p, L⟩ (c0 + 1) =
        jpf_loop f ⟨p + 1, L⟩
          (if op = Operation.JumpForward then c0 + 2
           else if op = Operation.JumpBack then c0
           else c0 + 1) := by
      simp only [jpf_loop]
      rw [hmv, hcell]
    rw [hstep]
    have hsb := segBal_succ_right L i (p + 1) op (by omega) hop
    have hncval :
        ((if op = Operation.JumpForward then c0 + 2
          else if op = Operation.JumpBack then c0
          else c0 + 1 : Nat) : Int) = segBal L i (p + 1 + 1) := by
      rw [hsb, ← hcval]
      cases op <;> simp [opDelta] <;> push_cast <;> ring
    by_cases hend : p + 1 = j
    · have h0 : ((if op = Operation.JumpForward then c0 + 2
          else if op = Operation.JumpBack then c0
          else c0 + 1 : Nat) : Int) = 0 := by
        rw [hncval, hend, hzero]
      have h0n : (if op = Operation.JumpForward then c0 + 2
          else if op = Operation.JumpBack then c0
          else c0 + 1) = 0 := by exact_mod_cast h0
      rw [h0n, hend]
      simp [jpf_loop]
    · have hne : segBal L i (p + 1 + 1) ≠ 0 := hnz (p + 1) (by omega) (by omega)
      have hnc1 : 1 ≤ (if op = Operation.JumpForward then c0 + 2
          else if op = Operation.JumpBack then c0
          else c0 + 1) := by
        by_contra h
        have h0 : (if op = Operation.JumpForward then c0 + 2
            else if op = Operation.JumpBack then c0
            else c0 + 1) = 0 := by omega
        rw [h0] at hncval
        exact hne (by exact_mod_cast hncval.symm)
      exact ih (p + 1) _ (by omega) (by omega) hnc1 hncval (by omega)

lemma mv_left_succ (L : List Operation) (p : Nat) :
    Tape.mv_left ⟨p + 1, L⟩ = some (⟨p, L⟩ : Tape Operation) := by
  simp [Tape.mv_left]

lemma jpb_loop_spec (L : List Operation) (k j : Nat)
    (hjlen : j < L.length) (hzero : segBal L k (j + 1) = 0)
    (hnz : ∀ m, k < m → m < j → segBal L m (j + 1) ≠ 0) :
    ∀ (fuel p c : Nat), k < p → p ≤ j → 1 ≤ c → (c : Int) = -segBal L p (j + 1) →
      p - k ≤ fuel → jpb_loop fuel ⟨p, L⟩ c = Res.ok ⟨k, L⟩ := by
  intro fuel
  induction fuel with
  | zero =>
    intro p c h1 h2 h3 h4 h5
    omega
  | succ f ih =>
    intro p c hkp hpj hc hcval hfuel
    obtain ⟨c0, rfl⟩ : ∃ c0, c = c0 + 1 := ⟨c - 1, by omega⟩
    obtain ⟨p0, rfl⟩ : ∃ p0, p = p0 + 1 := ⟨p - 1, by omega⟩
    have hlt : p0 < L.length := by omega
    obtain ⟨op, hop⟩ : ∃ op, L.get? p0 = some op :=
      ⟨L.get ⟨p0, hlt⟩, List.get?_eq_get hlt⟩
    have hcell : Tape.cell (⟨p0, L⟩ : Tape Operation) = some op := hop
    have hstep : jpb_loop (f + 1) ⟨p0 + 1, L⟩ (c0 + 1) =
        jpb_loop f ⟨p0, L⟩
          (if op = Operation.JumpBack then c0 + 2
           else if op = Operation.JumpForward then c0
           else c0 + 1) := by
      simp only [jpb_loop, mv_left_succ, hcell]
    rw [hstep]
    have hsplit := segBal_cons_left L p0 (j + 1) op (by omega) (by omega) hop
    have hncval :
        ((if op = Operation.JumpBack then c0 + 2
          else if op = Operation.JumpForward then c0
          else c0 + 1 : Nat) : Int) = -segBal L p0 (j + 1) := by
      rw [hsplit]
      cases op <;> simp [opDelta] <;> push_cast <;> omega
    by_cases hend : p0 = k
    · have h0 : ((if op = Operation.JumpBack then c0 + 2
          else if op = Operation.JumpForward then c0
          else c0 + 1 : Nat) : Int) = 0 := by
        rw [hncval, hend, hzero]
        ring
      have h0n : (if op = Operation.JumpBack then c0 + 2
          else if op = Operation.JumpForward then c0
          else c0 + 1) = 0 := by exact_mod_cast h0
      rw [h0n, hend]
      simp [jpb_loop]
    · have hne : segBal L p0 (j + 1) ≠ 0 := hnz p0 (by omega) (by omega)
      have hnc1 : 1 ≤ (if op = Operation.JumpBack then c0 + 2
          else if op = Operation.JumpForward then c0
          else c0 + 1) := by
        by_contra h
        have h0 : (if op = Operation.JumpBack then c0 + 2
            else if op = Operation.JumpForward then c0
            else c0 + 1) = 0 := by omega
        rw [h0] at hncval
        have : segBal L p0 (j + 1) = 0 := by
          have h00 : ((0 : Nat) : Int) = -segBal L p0 (j + 1) := hncval
          omega
        exact hne this
      exact ih p0 _ (by omega) (by omega) hnc1 hncval (by omega)

lemma segBal_zero_left (L : List Operation) (b : Nat) :
    segBal L 0 b = balInt (L.take b) := by
  simp [segBal, seg]

lemma segBal_to_length (L : List Operation) (i : Nat) (hbal : BalancedOps L)
    (hi : i ≤ L.length) : segBal L i L.length = -balInt (L.take i) := by
  have h1 : seg L i L.length = L.drop i := by rw [seg, List.take_length]
  have h2 : balInt (L.take i) + balInt (L.drop i) = 0 := by
    rw [← balInt_append, List.take_append_drop]
    exact hbal.1
  unfold segBal
  rw [h1]
  omega

lemma exists_matchFwd (L : List Operation) (i : Nat) (hbal : BalancedOps L)
    (hi : L.get? i = some Operation.JumpForward) : ∃ j, IsMatchFwd L i j := by
  have hilen : i < L.length := get?_lt_length hi
  have hend : segBal L i L.length ≤ 0 := by
    rw [segBal_to_length L i hbal (le_of_lt hilen)]
    have := hbal.2 i (le_of_lt hilen)
    omega
  have hsegii : segBal L i (i + 1) = 1 := by
    have h := segBal_succ_right L i i Operation.JumpForward (le_refl i) hi
    rw [segBal_self] at h
    simpa [opDelta] using h
  have hlast : i + 1 < L.length := by
    by_contra h
    have he : i + 1 = L.length := by omega
    rw [he] at hsegii
    omega
  have hex : ∃ m, i < m ∧ segBal L i (m + 1) ≤ 0 := by
    refine ⟨L.length - 1, by omega, ?_⟩
    have he : L.length - 1 + 1 = L.length := by omega
    rw [he]
    exact hend
  have hwit : i < L.length - 1 ∧ segBal L i (L.length - 1 + 1) ≤ 0 := by
    constructor
    · omega
    · have he : L.length - 1 + 1 = L.length := by omega
      rw [he]
      exact hend
  have hjP : i < Nat.find hex ∧ segBal L i (Nat.find hex + 1) ≤ 0 := Nat.find_spec hex
  have hjle : Nat.find hex ≤ L.length - 1 := Nat.find_min' hex hwit
  have hjlen2 : Nat.find hex < L.length := by omega
  have hpos : ∀ m, i ≤ m → m < Nat.find hex → 0 < segBal L i (m + 1) := by
    intro m h1 h2
    rcases eq_or_lt_of_le h1 with h1' | h1'
    · rw [← h1', hsegii]
      omega
    · have hmin := Nat.find_min hex h2
      push_neg at hmin
      exact hmin h1'
  obtain ⟨opj, hopj⟩ : ∃ op, L.get? (Nat.find hex) = some op :=
    ⟨L.get ⟨Nat.find hex, hjlen2⟩, List.get?_eq_get hjlen2⟩
  have hstep := segBal_succ_right L i (Nat.find hex) opj (by omega) hopj
  have hprev : 0 < segBal L i (Nat.find hex) := by
    have h := hpos (Nat.find hex - 1) (by omega) (by omega)
    have he : Nat.find hex - 1 + 1 = Nat.find hex := by omega
    rw [he] at h
    exact h
  have hbd := opDelta_bound opj
  have hdelta : opDelta opj = -1 ∧ segBal L i (Nat.find hex + 1) = 0 := by
    constructor <;> omega
  have hopj2 : L.get? (Nat.find hex) = some Operation.JumpBack := by
    rw [opDelta_eq_neg_one opj hdelta.1] at hopj
    exact hopj
  refine ⟨Nat.find hex, hjP.1, hjlen2, hi, hopj2, hdelta.2, ?_⟩
  intro m h1 h2
  exact ne_of_gt (hpos m (le_of_lt h1) h2)

/-- The backward-scan search predicate: the bracket balance from `m` up to
and including the jump-back at `j` is nonnegative. -/
def backP (L : List Operation) (j m : Nat) : Prop :=
  0 ≤ segBal L m (j + 1)

instance decBackP (L : List Operation) (j : Nat) : DecidablePred (backP L j) :=
  fun m => inferInstanceAs (Decidable (0 ≤ segBal L m (j + 1)))

lemma exists_matchBack (L : List Operation) (j : Nat) (hbal : BalancedOps L)
    (hj : L.get? j = some Operation.JumpBack) : ∃ k, IsMatchBack L k j := by
  have hjlen : j < L.length := get?_lt_length hj
  have hsegjj : segBal L j (j + 1) = -1 := by
    have h := segBal_succ_right L j j Operation.JumpBack (le_refl j) hj
    rw [segBal_self] at h
    simpa [opDelta] using h
  have hj0 : 0 < j := by
    rcases Nat.eq_zero_or_pos j with hj00 | hpos
    · exfalso
      subst hj00
      have h1 := hbal.2 1 (by omega)
      rw [← segBal_zero_left] at h1
      norm_num at hsegjj
      omega
    · exact hpos
  have h0 : backP L j 0 := by
    unfold backP
    rw [segBal_zero_left]
    exact hbal.2 (j + 1) (by omega)
  have hkP : backP L j (Nat.findGreatest (backP L j) (j - 1)) :=
    Nat.findGreatest_spec (Nat.zero_le (j - 1)) h0
  have hkP2 : 0 ≤ segBal L (Nat.findGreatest (backP L j) (j - 1)) (j + 1) := hkP
  have hk_le : Nat.findGreatest (backP L j) (j - 1) ≤ j - 1 :=
    Nat.findGreatest_le (j - 1)
  have hkgr : ∀ m, Nat.findGreatest (backP L j) (j - 1) < m → m ≤ j - 1 →
      ¬(0 ≤ segBal L m (j + 1)) :=
    fun m h1 h2 => Nat.findGreatest_is_greatest h1 h2
  have hklen : Nat.findGreatest (backP L j) (j - 1) < L.length := by omega
  obtain ⟨opk, hopk⟩ :
      ∃ op, L.get? (Nat.findGreatest (backP L j) (j - 1)) = some op :=
    ⟨L.get ⟨_, hklen⟩, List.get?_eq_get hklen⟩
  have hsplit := segBal_cons_left L _ (j + 1) opk (by omega) (by omega) hopk
  have hnext : segBal L (Nat.findGreatest (backP L j) (j - 1) + 1) (j + 1) ≤ -1 := by
    by_cases hkj : Nat.findGreatest (backP L j) (j - 1) + 1 = j
    · rw [hkj, hsegjj]
    · have h := hkgr (Nat.findGreatest (backP L j) (j - 1) + 1) (by omega) (by omega)
      omega
  have hbd := opDelta_bound opk
  have hmain : opDelta opk = 1 ∧
      segBal L (Nat.findGreatest (backP L j) (j - 1)) (j + 1) = 0 := by
    constructor <;> omega
  have hopk2 : L.get? (Nat.findGreatest (backP L j) (j - 1)) =
      some Operation.JumpForward := by
    rw [opDelta_eq_one opk hmain.1] at hopk
    exact hopk
  refine ⟨Nat.findGreatest (backP L j) (j - 1), by omega, hjlen, hopk2, hj, hmain.2, ?_⟩
  intro m h1 h2
  have h := hkgr m h1 (by omega)
  omega

lemma segBal_open (L : List Operation) (i : Nat)
    (hi : L.get? i = some Operation.JumpForward) : segBal L i (i + 1) = 1 := by
  have h := segBal_succ_right L i i Operation.JumpForward (le_refl i) hi
  rw [segBal_self] at h
  simpa [opDelta] using h

lemma segBal_close (L : List Operation) (j : Nat)
    (hj : L.get? j = some Operation.JumpBack) : segBal L j (j + 1) = -1 := by
  have h := segBal_succ_right L j j Operation.JumpBack (le_refl j) hj
  rw [segBal_self] at h
  simpa [opDelta] using h

lemma jpf_ok (p : Program) (L : List Operation) (i j fuel : Nat)
    (hops : p.ops = ⟨i, L⟩) (hm : IsMatchFwd L i j) (hc : p.memory.cell = some 0)
    (hfuel : j - i ≤ fuel) :
    Program.jpf fuel p = Res.ok { p with ops := ⟨j, L⟩ } := by
  obtain ⟨hij, hjlen, hi, hj, hzero, hnz⟩ := hm
  have hloop := jpf_loop_spec L i j hjlen hzero hnz fuel i 1 (le_refl i) hij (le_refl 1)
    (by rw [segBal_open L i hi]; norm_num) hfuel
  unfold Program.jpf
  rw [hc, hops]
  simp [hloop, Res.map]

lemma jpb_ok (p : Program) (L : List Operation) (k j fuel v : Nat)
    (hops : p.ops = ⟨j, L⟩) (hm : IsMatchBack L k j) (hc : p.memory.cell = some v)
    (hv : v ≠ 0) (hfuel : j - k ≤ fuel) :
    Program.jpb fuel p = Res.ok { p with ops := ⟨k, L⟩ } := by
  obtain ⟨hkj, hjlen, hk, hj, hzero, hnz⟩ := hm
  have hloop := jpb_loop_spec L k j hjlen hzero hnz fuel j 1 hkj (le_refl j) (le_refl 1)
    (by rw [segBal_close L j hj]; norm_num) hfuel
  unfold Program.jpb
  rw [hc, hops]
  simp [hv, hloop, Res.map]

lemma operate_jpf (c : Config) (fuel : Nat)
    (hcell : c.prog.ops.cell = some Operation.JumpForward) :
    Program.operate fuel c = (Program.jpf fuel c.prog).map fun p => { c with prog := p } := by
  unfold Program.operate
  rw [hcell]

lemma operate_jpb (c : Config) (fuel : Nat)
    (hcell : c.prog.ops.cell = some Operation.JumpBack) :
    Program.operate fuel c = (Program.jpb fuel c.prog).map fun p => { c with prog := p } := by
  unfold Program.operate
  rw [hcell]

lemma step_of_operate (c c2 : Config) (fuel : Nat)
    (h : Program.operate fuel c = Res.ok c2) :
    Program.step fuel c =
      Res.ok { c2 with prog := { c2.prog with ops := c2.prog.ops.mv_right } } := by
  unfold Program.step
  rw [h]
  rfl

lemma mv_right_cursor {T : Type} [Inhabited T] (t : Tape T) :
    (t.mv_right).cursor = t.cursor + 1 := by
  unfold Tape.mv_right
  split <;> rfl

/-- C1: on a balanced instruction tape, `step` executed on a jump-forward with
the current memory cell 0 leaves the instruction cursor immediately after the
matching jump-back, and `step` executed on a jump-back with the cell nonzero
leaves the cursor immediately to the right of the matching jump-forward, for
arbitrarily nested brackets; the scan is the counter loop started at 1
(`jpf_loop`/`jpb_loop`), stopping when the counter reaches 0 on the matching
bracket. -/
theorem claim_C1_jump_semantics :
    (∀ (L : List Operation) (i : Nat) (mem : Tape Nat)
       (ins : List (List Char)) (outs : List Nat),
       BalancedOps L → L.get? i = some Operation.JumpForward → mem.cell = some 0 →
       ∃ j, IsMatchFwd L i j ∧ ∀ fuel, j - i ≤ fuel →
         ∃ c2, Program.step fuel ⟨⟨⟨i, L⟩, mem⟩, ins, outs⟩ = Res.ok c2 ∧
           c2.prog.ops.cursor = j + 1) ∧
    (∀ (L : List Operation) (j : Nat) (mem : Tape Nat)
       (ins : List (List Char)) (outs : List Nat) (v : Nat),
       BalancedOps L → L.get? j = some Operation.JumpBack → mem.cell = some v → v ≠ 0 →
       ∃ k, IsMatchBack L k j ∧ ∀ fuel, j - k ≤ fuel →
         ∃ c2, Program.step fuel ⟨⟨⟨j, L⟩, mem⟩, ins, outs⟩ = Res.ok c2 ∧
           c2.prog.ops.cursor = k + 1) := by
  constructor
  · intro L i mem ins outs hbal hi hc
    obtain ⟨j, hm⟩ := exists_matchFwd L i hbal hi
    refine ⟨j, hm, ?_⟩
    intro fuel hfuel
    have hjpf := jpf_ok (⟨⟨i, L⟩, mem⟩ : Program) L i j fuel rfl hm hc hfuel
    have hop := operate_jpf (⟨⟨⟨i, L⟩, mem⟩, ins, outs⟩ : Config) fuel hi
    rw [hjpf] at hop
    have hop2 : Program.operate fuel (⟨⟨⟨i, L⟩, mem⟩, ins, outs⟩ : Config) =
        Res.ok ⟨⟨⟨j, L⟩, mem⟩, ins, outs⟩ := hop
    refine ⟨_, step_of_operate _ _ fuel hop2, ?_⟩
    exact mv_right_cursor (⟨j, L⟩ : Tape Operation)
  · intro L j mem ins outs v hbal hj hc hv
    obtain ⟨k, hm⟩ := exists_matchBack L j hbal hj
    refine ⟨k, hm, ?_⟩
    intro fuel hfuel
    have hjpb := jpb_ok (⟨⟨j, L⟩, mem⟩ : Program) L k j fuel v rfl hm hc hv hfuel
    have hop := operate_jpb (⟨⟨⟨j, L⟩, mem⟩, ins, outs⟩ : Config) fuel hj
    rw [hjpb] at hop
    have hop2 : Program.operate fuel (⟨⟨⟨j, L⟩, mem⟩, ins, outs⟩ : Config) =
        Res.ok ⟨⟨⟨k, L⟩, mem⟩, ins, outs⟩ := hop
    refine ⟨_, step_of_operate _ _ fuel hop2, ?_⟩
    exact mv_right_cursor (⟨k, L⟩ : Tape Operation)

/-- Witness for C1: the program `[]` with cell 0 jumps from position 0 to
position 2 (one past the matching `]` at 1), and with cell 5 at the `]` jumps
back to position 1 (one past the matching `[` at 0). -/
theorem claim_C1_jump_semantics_witness :
    (∃ j, IsMatchFwd [Operation.JumpForward, Operation.JumpBack] 0 j ∧ ∀ fuel, j - 0 ≤ fuel →
       ∃ c2, Program.step fuel
           ⟨⟨⟨0, [Operation.JumpForward, Operation.JumpBack]⟩, ⟨0, [0]⟩⟩, [], []⟩ =
           Res.ok c2 ∧ c2.prog.ops.cursor = j + 1) ∧
    (∃ k, IsMatchBack [Operation.JumpForward, Operation.JumpBack] k 1 ∧ ∀ fuel, 1 - k ≤ fuel →
       ∃ c2, Program.step fuel
           ⟨⟨⟨1, [Operation.JumpForward, Operation.JumpBack]⟩, ⟨0, [5]⟩⟩, [], []⟩ =
           Res.ok c2 ∧ c2.prog.ops.cursor = k + 1) :=
  ⟨claim_C1_jump_semantics.1 [Operation.JumpForward, Operation.JumpBack] 0 ⟨0, [0]⟩ [] []
     (by decide) (by decide) rfl,
   claim_C1_jump_semantics.2 [Operation.JumpForward, Operation.JumpBack] 1 ⟨0, [5]⟩ [] [] 5
     (by decide) (by decide) rfl (by decide)⟩

/-- C6: on a balanced instruction tape the jump scans terminate: `jpf` on a
jump-forward with cell 0 reaches the matching jump-back in finitely many
rightward moves, and `jpb` on a jump-back with a nonzero cell reaches the
matching jump-forward in finitely many leftward moves without the instruction
cursor underflowing (an underflow would yield `Res.fault`, not `Res.ok`). -/
theorem claim_C6_scan_terminates :
    (∀ (L : List Operation) (i : Nat) (mem : Tape Nat),
       BalancedOps L → L.get? i = some Operation.JumpForward → mem.cell = some 0 →
       ∃ j fuel, IsMatchFwd L i j ∧
         Program.jpf fuel ⟨⟨i, L⟩, mem⟩ = Res.ok ⟨⟨j, L⟩, mem⟩) ∧
    (∀ (L : List Operation) (j : Nat) (mem : Tape Nat) (v : Nat),
       BalancedOps L → L.get? j = some Operation.JumpBack → mem.cell = some v → v ≠ 0 →
       ∃ k fuel, IsMatchBack L k j ∧
         Program.jpb fuel ⟨⟨j, L⟩, mem⟩ = Res.ok ⟨⟨k, L⟩, mem⟩) := by
  constructor
  · intro L i mem hbal hi hc
    obtain ⟨j, hm⟩ := exists_matchFwd L i hbal hi
    exact ⟨j, j - i, hm, jpf_ok ⟨⟨i, L⟩, mem⟩ L i j (j - i) rfl hm hc (le_refl _)⟩
  · intro L j mem v hbal hj hc hv
    obtain ⟨k, hm⟩ := exists_matchBack L j hbal hj
    exact ⟨k, j - k, hm, jpb_ok ⟨⟨j, L⟩, mem⟩ L k j (j - k) v rfl hm hc hv (le_refl _)⟩

/-- Witness for C6: both scans of the nested program `[[]]` succeed. -/
theorem claim_C6_scan_terminates_witness :
    (∃ j fuel, IsMatchFwd [Operation.JumpForward, Operation.JumpForward,
        Operation.JumpBack, Operation.JumpBack] 0 j ∧
       Program.jpf fuel ⟨⟨0, [Operation.JumpForward, Operation.JumpForward,
         Operation.JumpBack, Operation.JumpBack]⟩, ⟨0, [0]⟩⟩ =
         Res.ok ⟨⟨j, [Operation.JumpForward, Operation.JumpForward,
           Operation.JumpBack, Operation.JumpBack]⟩, ⟨0, [0]⟩⟩) ∧
    (∃ k fuel, IsMatchBack [Operation.JumpForward, Operation.JumpForward,
        Operation.JumpBack, Operation.JumpBack] k 3 ∧
       Program.jpb fuel ⟨⟨3, [Operation.JumpForward, Operation.JumpForward,
         Operation.JumpBack, Operation.JumpBack]⟩, ⟨0, [7]⟩⟩ =
         Res.ok ⟨⟨k, [Operation.JumpForward, Operation.JumpForward,
           Operation.JumpBack, Operation.JumpBack]⟩, ⟨0, [7]⟩⟩) :=
  ⟨claim_C6_scan_terminates.1 _ 0 ⟨0, [0]⟩ (by decide) (by decide) rfl,
   claim_C6_scan_terminates.2 _ 3 ⟨0, [7]⟩ 7 (by decide) (by decide) rfl (by decide)⟩

lemma length_resize_with {T : Type} (l : List T) (n : Nat) (d : T) :
    (resize_with l n d).length = n := by
  unfold resize_with
  split
  · rw [List.length_take]
    omega
  · rw [List.length_append, List.length_replicate]
    omega

lemma resize_with_double {T : Type} (l : List T) (d : T) :
    resize_with l (l.length * 2) d = l ++ List.replicate l.length d := by
  unfold resize_with
  rcases Nat.eq_zero_or_pos l.length with h0 | hpos
  · rw [if_pos (by omega)]
    have hl : l = [] := List.length_eq_zero.mp h0
    subst hl
    simp
  · rw [if_neg (by omega)]
    congr 2
    omega

lemma cell_some_lt {T : Type} (t : Tape T) (w : T) (h : t.cell = some w) :
    t.cursor < t.data.length := by
  unfold Tape.cell at h
  rw [List.get?_eq_getElem?] at h
  exact (List.getElem?_eq_some.mp h).1

lemma write_cell {T : Type} (t : Tape T) (v w : T) (h : t.cell = some w) :
    ∃ t2, t.write v = some t2 ∧ t2.cell = some v ∧ t2.cursor = t.cursor ∧
      t2.data.length = t.data.length := by
  have hlt : t.cursor < t.data.length := cell_some_lt t w h
  refine ⟨⟨t.cursor, t.data.set t.cursor v⟩, ?_, ?_, rfl, by simp⟩
  · unfold Tape.write
    rw [if_pos hlt]
  · unfold Tape.cell
    rw [List.get?_eq_getElem?]
    exact List.getElem?_set_self hlt

/-- Counterexample for C2: the claim quantifies over every tape, including the
one built from an empty vector (as `Program::new []` does); there the cursor
is 0 and the length is 0, so `0 ≤ cursor < length` already fails at
construction. -/
theorem claim_C2_cursor_invariant_cex :
    ¬ (0 ≤ (Tape.new ([] : List Operation)).cursor ∧
       (Tape.new ([] : List Operation)).cursor < (Tape.new ([] : List Operation)).data.length) := by
  decide

/-- C2 (amended): for every tape whose backing vector is nonempty at
construction, `0 ≤ cursor < length` holds after construction and is preserved
by `mv_right` and by every successful `mv_left`; under the invariant, reading
`cell` and writing through the cursor always address a valid element.
(Construction from an empty vector violates the invariant.) -/
theorem claim_C2_cursor_invariant {T : Type} [Inhabited T]
    (data : List T) (t t2 : Tape T) (v : T) :
    (data ≠ [] → (Tape.new data).cursor < (Tape.new data).data.length) ∧
    (t.cursor < t.data.length → (t.mv_right).cursor < (t.mv_right).data.length) ∧
    (t.mv_left = some t2 → t.cursor < t.data.length →
      t2.cursor < t2.data.length) ∧
    (t.cursor < t.data.length →
      (∃ w, t.cell = some w) ∧ (∃ t3, t.write v = some t3)) := by
  refine ⟨?_, ?_, ?_, ?_⟩
  · intro h
    show 0 < data.length
    exact List.length_pos.mpr h
  · intro h
    unfold Tape.mv_right
    split
    · show t.cursor + 1 < (resize_with t.data (t.data.length * 2) default).length
      rw [length_resize_with]
      omega
    · show t.cursor + 1 < t.data.length
      omega
  · intro hml h
    unfold Tape.mv_left at hml
    rcases Nat.eq_zero_or_pos t.cursor with h0 | hpos
    · rw [if_pos h0] at hml
      exact absurd hml (by simp)
    · rw [if_neg (by omega)] at hml
      have ht2 : t2 = ⟨t.cursor - 1, t.data⟩ := by
        have := hml
        simp only [Option.some.injEq] at this
        exact this.symm
      rw [ht2]
      show t.cursor - 1 < t.data.length
      omega
  · intro h
    constructor
    · refine ⟨t.data.get ⟨t.cursor, h⟩, ?_⟩
      unfold Tape.cell
      exact List.get?_eq_get h
    · refine ⟨⟨t.cursor, t.data.set t.cursor v⟩, ?_⟩
      unfold Tape.write
      rw [if_pos h]

/-- Witness for C2 (amended): concrete nonempty tapes satisfy each clause. -/
theorem claim_C2_cursor_invariant_witness :
    ((Tape.new [0] : Tape Nat).cursor < (Tape.new [0] : Tape Nat).data.length) ∧
    ((⟨1, [3, 4]⟩ : Tape Nat).mv_right.cursor < (⟨1, [3, 4]⟩ : Tape Nat).mv_right.data.length) ∧
    ((⟨0, [3, 4]⟩ : Tape Nat).cursor < (⟨0, [3, 4]⟩ : Tape Nat).data.length) ∧
    ((∃ w, (⟨1, [3, 4]⟩ : Tape Nat).cell = some w) ∧
     (∃ t3, (⟨1, [3, 4]⟩ : Tape Nat).write 9 = some t3)) := by
  have w := claim_C2_cursor_invariant [0] (⟨1, [3, 4]⟩ : Tape Nat) (⟨0, [3, 4]⟩ : Tape Nat) 9
  exact ⟨w.1 (by decide), w.2.1 (by decide), w.2.2.1 (by decide) (by decide),
    w.2.2.2 (by decide)⟩

/-- C3: the increment operation is `+1 mod 256` (255 wraps to 0), the
decrement operation is `-1 mod 256` (0 wraps to 255), they are mutual
inverses on every byte value, and applied through `Program.inc`/`Program.dec`
they rewrite the current memory cell accordingly. -/
theorem claim_C3_wraparound (v : Nat) (hv : v < 256) :
    wrapping_add v 1 = (v + 1) % 256 ∧
    ((wrapping_sub v 1 : Nat) : Int) = ((v : Int) - 1) % 256 ∧
    wrapping_add 255 1 = 0 ∧
    wrapping_sub 0 1 = 255 ∧
    wrapping_add (wrapping_sub v 1) 1 = v ∧
    wrapping_sub (wrapping_add v 1) 1 = v ∧
    (∀ (p : Program) (w : Nat), p.memory.cell = some w →
       ∃ p2, Program.inc p = some p2 ∧ p2.memory.cell = some (wrapping_add w 1)) ∧
    (∀ (p : Program) (w : Nat), p.memory.cell = some w →
       ∃ p2, Program.dec p = some p2 ∧ p2.memory.cell = some (wrapping_sub w 1)) := by
  refine ⟨rfl, ?_, rfl, rfl, ?_, ?_, ?_, ?_⟩
  · unfold wrapping_sub
    omega
  · unfold wrapping_add wrapping_sub
    omega
  · unfold wrapping_add wrapping_sub
    omega
  · intro p w hc
    obtain ⟨t2, hw, hcell2, _, _⟩ := write_cell p.memory (wrapping_add w 1) w hc
    refine ⟨{ p with memory := t2 }, ?_, hcell2⟩
    unfold Program.inc
    simp only [hc, hw, Option.map_some']
  · intro p w hc
    obtain ⟨t2, hw, hcell2, _, _⟩ := write_cell p.memory (wrapping_sub w 1) w hc
    refine ⟨{ p with memory := t2 }, ?_, hcell2⟩
    unfold Program.dec
    simp only [hc, hw, Option.map_some']

/-- Witness for C3 at `v = 7`, with the state-level clauses applied to a
fresh program (cell 0). -/
theorem claim_C3_wraparound_witness :
    wrapping_add (wrapping_sub 7 1) 1 = 7 ∧
    wrapping_sub (wrapping_add 7 1) 1 = 7 ∧
    (∃ p2, Program.inc (Program.new []) = some p2 ∧
       p2.memory.cell = some (wrapping_add 0 1)) ∧
    (∃ p2, Program.dec (Program.new []) = some p2 ∧
       p2.memory.cell = some (wrapping_sub 0 1)) := by
  have w := claim_C3_wraparound 7 (by decide)
  exact ⟨w.2.2.2.2.1, w.2.2.2.2.2.1,
    w.2.2.2.2.2.2.1 (Program.new []) 0 rfl,
    w.2.2.2.2.2.2.2 (Program.new []) 0 rfl⟩

/-- C4: whenever a rightward move leaves the cursor at or beyond the current
length, `mv_right` doubles the backing length exactly, filling the new slots
with the element default; otherwise it only advances the cursor; it is a
total function (never fails) returning the updated tape. -/
theorem claim_C4_growth {T : Type} [Inhabited T] (t : Tape T) :
    (t.cursor + 1 ≥ t.data.length →
       t.mv_right = ⟨t.cursor + 1, t.data ++ List.replicate t.data.length default⟩ ∧
       (t.mv_right).data.length = t.data.length * 2) ∧
    (t.cursor + 1 < t.data.length → t.mv_right = ⟨t.cursor + 1, t.data⟩) := by
  constructor
  · intro h
    have heq : t.mv_right = ⟨t.cursor + 1, t.data ++ List.replicate t.data.length default⟩ := by
      unfold Tape.mv_right
      rw [if_pos h, resize_with_double]
    refine ⟨heq, ?_⟩
    rw [heq]
    show (t.data ++ List.replicate t.data.length default).length = t.data.length * 2
    rw [List.length_append, List.length_replicate]
    omega
  · intro h
    unfold Tape.mv_right
    rw [if_neg (by omega)]

/-- Witness for C4: a growth step on a full tape of length 2 and a plain move
on a non-full tape. -/
theorem claim_C4_growth_witness :
    ((⟨1, [5, 6]⟩ : Tape Nat).mv_right = ⟨2, [5, 6] ++ List.replicate 2 (default : Nat)⟩ ∧
     (⟨1, [5, 6]⟩ : Tape Nat).mv_right.data.length = 2 * 2) ∧
    ((⟨0, [5, 6]⟩ : Tape Nat).mv_right = ⟨1, [5, 6]⟩) :=
  ⟨(claim_C4_growth (⟨1, [5, 6]⟩ : Tape Nat)).1 (by decide),
   (claim_C4_growth (⟨0, [5, 6]⟩ : Tape Nat)).2 (by decide)⟩

/-- C8: with the cursor strictly positive, `mv_left` decrements the cursor by
exactly one and changes nothing else, and it cannot fault; with the cursor at
0 the unchecked decrement is the modelled underflow fault (the source has no
guard). -/
theorem claim_C8_mv_left {T : Type} (t : Tape T) :
    (0 < t.cursor → t.mv_left = some ⟨t.cursor - 1, t.data⟩) ∧
    (t.cursor = 0 → t.mv_left = none) := by
  constructor
  · intro h
    unfold Tape.mv_left
    rw [if_neg (by omega)]
  · intro h
    unfold Tape.mv_left
    rw [if_pos h]

/-- Witness for C8: a decrement from cursor 2 and the fault at cursor 0. -/
theorem claim_C8_mv_left_witness :
    (⟨2, [9, 9, 9]⟩ : Tape Nat).mv_left = some ⟨1, [9, 9, 9]⟩ ∧
    (⟨0, [9]⟩ : Tape Nat).mv_left = none :=
  ⟨(claim_C8_mv_left (⟨2, [9, 9, 9]⟩ : Tape Nat)).1 (by decide),
   (claim_C8_mv_left (⟨0, [9]⟩ : Tape Nat)).2 rfl⟩

/-- C5: `run` performs no step and returns the state unchanged when the
current instruction is the no-op, and whenever `run` terminates normally the
instruction under the instruction cursor is the no-op — there is no other
normal termination path. -/
theorem claim_C5_run_noop_halt :
    (∀ (fuel : Nat) (c : Config), c.prog.ops.cell = some Operation.NoOp →
       Program.run (fuel + 1) c = Res.ok c) ∧
    (∀ (fuel : Nat) (c c2 : Config), Program.run fuel c = Res.ok c2 →
       c2.prog.ops.cell = some Operation.NoOp) := by
  constructor
  · intro fuel c h
    unfold Program.run
    simp only [h]
    simp
  · intro fuel
    induction fuel with
    | zero =>
      intro c c2 h
      exact absurd h (by simp [Program.run])
    | succ f ih =>
      intro c c2 h
      unfold Program.run at h
      rcases hcell : c.prog.ops.cell with _ | op
      · simp only [hcell] at h
        exact absurd h (by simp)
      · simp only [hcell] at h
        by_cases hop : op = Operation.NoOp
        · rw [if_pos hop] at h
          have hc : c = c2 := by
            simpa using h
          rw [← hc, hcell, hop]
        · rw [if_neg hop] at h
          rcases hstep : Program.step f c with c3 | _ | _
          · rw [hstep] at h
            exact ih c3 c2 h
          · rw [hstep] at h
            exact absurd h (by simp)
          · rw [hstep] at h
            exact absurd h (by simp)

/-- Witness for C5: a program already sitting on a no-op halts unchanged, and
the halted state's current instruction is the no-op. -/
theorem claim_C5_run_noop_halt_witness :
    Program.run 3 ⟨⟨⟨0, [Operation.NoOp]⟩, ⟨0, [0]⟩⟩, [], []⟩ =
      Res.ok ⟨⟨⟨0, [Operation.NoOp]⟩, ⟨0, [0]⟩⟩, [], []⟩ ∧
    (⟨⟨⟨0, [Operation.NoOp]⟩, ⟨0, [0]⟩⟩, [], []⟩ : Config).prog.ops.cell =
      some Operation.NoOp :=
  ⟨claim_C5_run_noop_halt.1 2 ⟨⟨⟨0, [Operation.NoOp]⟩, ⟨0, [0]⟩⟩, [], []⟩ rfl,
   claim_C5_run_noop_halt.2 3 ⟨⟨⟨0, [Operation.NoOp]⟩, ⟨0, [0]⟩⟩, [], []⟩
     ⟨⟨⟨0, [Operation.NoOp]⟩, ⟨0, [0]⟩⟩, [], []⟩
     (claim_C5_run_noop_halt.1 2 ⟨⟨⟨0, [Operation.NoOp]⟩, ⟨0, [0]⟩⟩, [], []⟩ rfl)⟩

lemma inc_ops (p p2 : Program) (h : Program.inc p = some p2) : p2.ops = p.ops := by
  unfold Program.inc at h
  rcases hc : p.memory.cell with _ | v
  · simp [hc] at h
  · simp only [hc] at h
    rcases hw : p.memory.write (wrapping_add v 1) with _ | m
    · simp [hw] at h
    · simp only [hw, Option.map_some', Option.some.injEq] at h
      rw [← h]

lemma dec_ops (p p2 : Program) (h : Program.dec p = some p2) : p2.ops = p.ops := by
  unfold Program.dec at h
  rcases hc : p.memory.cell with _ | v
  · simp [hc] at h
  · simp only [hc] at h
    rcases hw : p.memory.write (wrapping_sub v 1) with _ | m
    · simp [hw] at h
    · simp only [hw, Option.map_some', Option.some.injEq] at h
      rw [← h]

lemma mvl_ops (p p2 : Program) (h : Program.mvl p = some p2) : p2.ops = p.ops := by
  unfold Program.mvl at h
  rcases hm : p.memory.mv_left with _ | m
  · simp [hm] at h
  · simp only [hm, Option.map_some', Option.some.injEq] at h
    rw [← h]

lemma inp_ops (p p2 : Program) (line : List Char) (h : Program.inp p line = some p2) :
    p2.ops = p.ops := by
  unfold Program.inp at h
  rcases hp : parse_u8 (trimChars line) with _ | v
  · simp [hp] at h
  · simp only [hp] at h
    rcases hw : p.memory.write v with _ | m
    · simp [hw] at h
    · simp only [hw, Option.map_some', Option.some.injEq] at h
      rw [← h]

/-- Counterexample for C7: `operate` on a jump-forward with current memory
cell 0 relocates the instruction cursor (from 0 to 1 on the program `[]`), so
`operate` does not leave the instruction cursor unchanged in every case. -/
theorem claim_C7_operate_frame_cex :
    Program.operate 1 ⟨⟨⟨0, [Operation.JumpForward, Operation.JumpBack]⟩, ⟨0, [0]⟩⟩, [], []⟩ =
      Res.ok ⟨⟨⟨1, [Operation.JumpForward, Operation.JumpBack]⟩, ⟨0, [0]⟩⟩, [], []⟩ ∧
    (1 : Nat) ≠ 0 :=
  ⟨rfl, by decide⟩

/-- C7 (amended): `operate` inspects the instruction under the instruction
cursor and performs exactly one dispatch case; it leaves the instruction
cursor unchanged in every case except a taken jump (a jump-forward with the
cell 0 or a jump-back with the cell nonzero, which relocate the cursor by the
bracket scan); the unconditional advance is the separate `step` phase. -/
theorem claim_C7_operate_frame (fuel : Nat) (c c2 : Config) (op : Operation)
    (hcell : c.prog.ops.cell = some op)
    (hjf : op = Operation.JumpForward → c.prog.memory.cell ≠ some 0)
    (hjb : op = Operation.JumpBack → c.prog.memory.cell = some 0)
    (hok : Program.operate fuel c = Res.ok c2) :
    c2.prog.ops.cursor = c.prog.ops.cursor := by
  unfold Program.operate at hok
  cases op with
  | Increment =>
    simp only [hcell] at hok
    rcases hinc : c.prog.inc with _ | p
    · simp [hinc, Res.ofOption] at hok
    · simp only [hinc, Option.map_some', Res.ofOption, Res.ok.injEq] at hok
      rw [← hok]
      show p.ops.cursor = c.prog.ops.cursor
      rw [inc_ops c.prog p hinc]
  | Decrement =>
    simp only [hcell] at hok
    rcases hdec : c.prog.dec with _ | p
    · simp [hdec, Res.ofOption] at hok
    · simp only [hdec, Option.map_some', Res.ofOption, Res.ok.injEq] at hok
      rw [← hok]
      show p.ops.cursor = c.prog.ops.cursor
      rw [dec_ops c.prog p hdec]
  | MoveLeft =>
    simp only [hcell] at hok
    rcases hmvl : c.prog.mvl with _ | p
    · simp [hmvl, Res.ofOption] at hok
    · simp only [hmvl, Option.map_some', Res.ofOption, Res.ok.injEq] at hok
      rw [← hok]
      show p.ops.cursor = c.prog.ops.cursor
      rw [mvl_ops c.prog p hmvl]
  | MoveRight =>
    simp only [hcell, Res.ok.injEq] at hok
    rw [← hok]
    rfl
  | Output =>
    simp only [hcell] at hok
    rcases hprt : c.prog.prt with _ | v
    · simp [hprt, Res.ofOption] at hok
    · simp only [hprt, Option.map_some', Res.ofOption, Res.ok.injEq] at hok
      rw [← hok]
  | Input =>
    simp only [hcell] at hok
    rcases hin : c.stdin with _ | ⟨line, rest⟩
    · simp [hin] at hok
    · simp only [hin] at hok
      rcases hinp : c.prog.inp line with _ | p
      · simp [hinp, Res.ofOption] at hok
      · simp only [hinp, Option.map_some', Res.ofOption, Res.ok.injEq] at hok
        rw [← hok]
        show p.ops.cursor = c.prog.ops.cursor
        rw [inp_ops c.prog p line hinp]
  | JumpForward =>
    simp only [hcell] at hok
    unfold Program.jpf at hok
    rcases hmc : c.prog.memory.cell with _ | v
    · simp [hmc, Res.map] at hok
    · simp only [hmc] at hok
      have hv : ¬ (v = 0) := by
        intro h0
        exact hjf rfl (by rw [hmc, h0])
      rw [if_neg hv] at hok
      simp only [Res.map, Res.ok.injEq] at hok
      rw [← hok]
  | JumpBack =>
    simp only [hcell] at hok
    unfold Program.jpb at hok
    have hmc : c.prog.memory.cell = some 0 := hjb rfl
    simp only [hmc] at hok
    rw [if_neg (by omega)] at hok
    simp only [Res.map, Res.ok.injEq] at hok
    rw [← hok]
  | NoOp =>
    simp only [hcell, Res.ok.injEq] at hok
    rw [← hok]

/-- Witness for C7 (amended): an increment leaves the instruction cursor
where it was. -/
theorem claim_C7_operate_frame_witness :
    (⟨⟨⟨0, [Operation.Increment]⟩, ⟨0, [6]⟩⟩, [], []⟩ : Config).prog.ops.cursor =
      (⟨⟨⟨0, [Operation.Increment]⟩, ⟨0, [5]⟩⟩, [], []⟩ : Config).prog.ops.cursor :=
  claim_C7_operate_frame 1 ⟨⟨⟨0, [Operation.Increment]⟩, ⟨0, [5]⟩⟩, [], []⟩
    ⟨⟨⟨0, [Operation.Increment]⟩, ⟨0, [6]⟩⟩, [], []⟩ Operation.Increment
    rfl (by decide) (by decide) rfl

/-- C10: constructing a `Program` from an empty instruction sequence (for
instance, a source text with none of the 8 recognized symbols) succeeds, but
the first `step` or `run` faults with an out-of-bounds read instead of
halting at a no-op sentinel: the instruction tape's backing vector is empty,
`cell` on it is the out-of-bounds fault, and the growth rule doubles 0 to 0,
so the tape can never become nonempty. -/
theorem claim_C10_empty_program_faults :
    (∀ cs : List Char, (∀ c ∈ cs, Operation.fromChar c = Operation.NoOp) →
       parseOps cs = []) ∧
    (Program.new []).ops = Tape.new [] ∧
    (∀ t : Tape Operation, t.data = [] → (t.mv_right).data = []) ∧
    (Tape.new ([] : List Operation)).cell = none ∧
    (∀ (fuel : Nat) (ins : List (List Char)) (outs : List Nat),
       Program.step fuel ⟨Program.new [], ins, outs⟩ = Res.fault) ∧
    (∀ (fuel : Nat) (ins : List (List Char)) (outs : List Nat),
       Program.run (fuel + 1) ⟨Program.new [], ins, outs⟩ = Res.fault) := by
  refine ⟨?_, rfl, ?_, rfl, ?_, ?_⟩
  · intro cs h
    unfold parseOps
    rw [List.filter_eq_nil]
    intro op hop
    rw [List.mem_map] at hop
    obtain ⟨c, hc, hop2⟩ := hop
    rw [← hop2, h c hc]
    simp
  · intro t h
    unfold Tape.mv_right
    rw [if_pos (by rw [h]; simp)]
    show resize_with t.data (t.data.length * 2) default = []
    rw [h]
    rfl
  · intro fuel ins outs
    rfl
  · intro fuel ins outs
    rfl

/-- Witness for C10: a comment-only source parses to the empty program, the
empty tape stays empty after a growth step, and running the empty program
faults. -/
theorem claim_C10_empty_program_faults_witness :
    parseOps ['h', 'i', '!'] = [] ∧
    ((⟨0, []⟩ : Tape Operation).mv_right).data = [] ∧
    Program.run 5 ⟨Program.new [], [], []⟩ = Res.fault :=
  ⟨claim_C10_empty_program_faults.1 ['h', 'i', '!'] (by decide),
   claim_C10_empty_program_faults.2.2.1 ⟨0, []⟩ rfl,
   claim_C10_empty_program_faults.2.2.2.2.2 4 [] []⟩

/-- Decimal value of a digit string (the mathematical reading used to state
what the parser computes). -/
def decimalVal (ds : List Char) : Nat :=
  List.foldl (fun a c => a * 10 + (c.toNat - 48)) 0 ds

lemma decimal_foldl_ge (ds : List Char) :
    ∀ acc : Nat, acc ≤ List.foldl (fun a c => a * 10 + (c.toNat - 48)) acc ds := by
  induction ds with
  | nil =>
    intro acc
    simp
  | cons c cs ih =>
    intro acc
    rw [List.foldl_cons]
    exact le_trans (by omega) (ih (acc * 10 + (c.toNat - 48)))

lemma digitVal_of_digit (c : Char) (h : '0' ≤ c ∧ c ≤ '9') :
    digitVal c = some (c.toNat - 48) := by
  unfold digitVal
  rw [if_pos h]

lemma parseDigitsPos_le (ds : List Char) :
    ∀ acc v : Nat, parseDigitsPos ds acc = some v → acc ≤ 255 → v ≤ 255 := by
  induction ds with
  | nil =>
    intro acc v h hacc
    simp only [parseDigitsPos, Option.some.injEq] at h
    omega
  | cons c cs ih =>
    intro acc v h hacc
    unfold parseDigitsPos at h
    rcases hd : digitVal c with _ | d
    · simp [hd] at h
    · simp only [hd] at h
      by_cases h1 : acc * 10 ≤ 255
      · rw [if_pos h1] at h
        by_cases h2 : acc * 10 + d ≤ 255
        · rw [if_pos h2] at h
          exact ih (acc * 10 + d) v h h2
        · rw [if_neg h2] at h
          simp at h
      · rw [if_neg h1] at h
        simp at h

lemma parseDigitsPos_foldl (ds : List Char) :
    ∀ acc v : Nat, parseDigitsPos ds acc = some v →
      v = List.foldl (fun a c => a * 10 + (c.toNat - 48)) acc ds := by
  induction ds with
  | nil =>
    intro acc v h
    simp only [parseDigitsPos, Option.some.injEq] at h
    simp [← h]
  | cons c cs ih =>
    intro acc v h
    unfold parseDigitsPos at h
    rcases hd : digitVal c with _ | d
    · simp [hd] at h
    · simp only [hd] at h
      by_cases h1 : acc * 10 ≤ 255
      · rw [if_pos h1] at h
        by_cases h2 : acc * 10 + d ≤ 255
        · rw [if_pos h2] at h
          have hd2 : d = c.toNat - 48 := by
            unfold digitVal at hd
            split at hd
            · simpa using hd.symm
            · simp at hd
          rw [List.foldl_cons, ← hd2]
          exact ih (acc * 10 + d) v h
        · rw [if_neg h2] at h
          simp at h
      · rw [if_neg h1] at h
        simp at h

lemma parseDigitsPos_complete (ds : List Char) :
    ∀ acc : Nat, (∀ c ∈ ds, '0' ≤ c ∧ c ≤ '9') →
      List.foldl (fun a c => a * 10 + (c.toNat - 48)) acc ds ≤ 255 →
      parseDigitsPos ds acc =
        some (List.foldl (fun a c => a * 10 + (c.toNat - 48)) acc ds) := by
  induction ds with
  | nil =>
    intro acc h1 h2
    simp [parseDigitsPos]
  | cons c cs ih =>
    intro acc h1 h2
    have hd := digitVal_of_digit c (h1 c (List.mem_cons_self c cs))
    rw [List.foldl_cons] at h2 ⊢
    have hge := decimal_foldl_ge cs (acc * 10 + (c.toNat - 48))
    unfold parseDigitsPos
    simp only [hd]
    rw [if_pos (by omega), if_pos (by omega)]
    exact ih (acc * 10 + (c.toNat - 48)) (fun x hx => h1 x (List.mem_cons_of_mem c hx)) h2

lemma digit_ne_plus (c : Char) (h : '0' ≤ c ∧ c ≤ '9') : ¬ (c = '+') := by
  intro he
  rw [he] at h
  exact absurd h.1 (by decide)

lemma parse_u8_le (s : List Char) (v : Nat) (h : parse_u8 s = some v) : v ≤ 255 := by
  rcases s with _ | ⟨c, cs⟩
  · rw [parse_u8.eq_1] at h
    exact absurd h (by simp)
  · rw [parse_u8.eq_2] at h
    by_cases h1 : c = '+'
    · rw [if_pos h1] at h
      rcases cs with _ | ⟨c2, cs2⟩
      · simp at h
      · simp only [List.isEmpty_cons, Bool.false_eq_true, if_false] at h
        exact parseDigitsPos_le (c2 :: cs2) 0 v h (by omega)
    · rw [if_neg h1] at h
      exact parseDigitsPos_le (c :: cs) 0 v h (by omega)

/-- C9: the input operation takes one line, trims it, and parses it as a
base-10 integer in `[0, 255]`: every successful parse is at most 255 and is
stored into the current memory cell; a line whose trimmed content does not
parse is a fatal fault with no coercion; a nonempty all-digit line parses to
its decimal value exactly when that value is at most 255 and is rejected
above 255; every minus-signed line is rejected (no sign stripping for the
unsigned cell type); and `operate` on the input instruction consumes exactly
the first pending stdin line. -/
theorem claim_C9_input :
    (∀ (s : List Char) (v : Nat), parse_u8 s = some v → v ≤ 255) ∧
    (∀ (p : Program) (line : List Char) (w v : Nat),
       p.memory.cell = some w → parse_u8 (trimChars line) = some v →
       ∃ p2, Program.inp p line = some p2 ∧ p2.memory.cell = some v) ∧
    (∀ (p : Program) (line : List Char),
       parse_u8 (trimChars line) = none → Program.inp p line = none) ∧
    (∀ ds : List Char, ds ≠ [] → (∀ c ∈ ds, '0' ≤ c ∧ c ≤ '9') →
       decimalVal ds ≤ 255 → parse_u8 ds = some (decimalVal ds)) ∧
    (∀ ds : List Char, ds ≠ [] → (∀ c ∈ ds, '0' ≤ c ∧ c ≤ '9') →
       255 < decimalVal ds → parse_u8 ds = none) ∧
    (∀ cs : List Char, parse_u8 ('-' :: cs) = none) ∧
    (∀ (fuel : Nat) (c : Config) (line : List Char) (rest : List (List Char))
       (p2 : Program),
       c.prog.ops.cell = some Operation.Input → c.stdin = line :: rest →
       c.prog.inp line = some p2 →
       Program.operate fuel c = Res.ok { c with prog := p2, stdin := rest }) := by
  refine ⟨parse_u8_le, ?_, ?_, ?_, ?_, ?_, ?_⟩
  · intro p line w v hc hp
    obtain ⟨t2, hw, hcell2, _, _⟩ := write_cell p.memory v w hc
    refine ⟨{ p with memory := t2 }, ?_, hcell2⟩
    unfold Program.inp
    simp only [hp, hw, Option.map_some']
  · intro p line hp
    unfold Program.inp
    simp only [hp]
  · intro ds hne hdig hsmall
    rcases ds with _ | ⟨c, cs⟩
    · exact absurd rfl hne
    · have hd := hdig c (List.mem_cons_self c cs)
      simp only [parse_u8.eq_2]
      rw [if_neg (digit_ne_plus c hd)]
      exact parseDigitsPos_complete (c :: cs) 0 hdig hsmall
  · intro ds hne hdig hbig
    rcases hps : parse_u8 ds with _ | v
    · rfl
    · exfalso
      have hle := parse_u8_le ds v hps
      rcases ds with _ | ⟨c, cs⟩
      · exact hne rfl
      · have hd := hdig c (List.mem_cons_self c cs)
        simp only [parse_u8.eq_2] at hps
        rw [if_neg (digit_ne_plus c hd)] at hps
        have hv := parseDigitsPos_foldl (c :: cs) 0 v hps
        unfold decimalVal at hbig
        omega
  · intro cs
    rw [parse_u8.eq_2, if_neg (by decide : ¬ ('-' = '+'))]
    rfl
  · intro fuel c line rest p2 hcell hstdin hinp
    unfold Program.operate
    simp only [hcell, hstdin, hinp, Option.map_some']
    rfl

/-- Witness for C9: the line `" 42\n"` stores 42; `"x"` is a fatal parse
fault; `"99"` parses to its decimal value while `"999"` is rejected; the
minus-signed lines `"-0"` and `"-1"` are rejected and `"-0"` makes the input
operation fault; and the input instruction consumes the pending line `"7"`. -/
theorem claim_C9_input_witness :
    (42 : Nat) ≤ 255 ∧
    (∃ p2, Program.inp (Program.new []) [' ', '4', '2', '\n'] = some p2 ∧
       p2.memory.cell = some 42) ∧
    Program.inp (Program.new []) ['x', '\n'] = none ∧
    parse_u8 ['9', '9'] = some (decimalVal ['9', '9']) ∧
    parse_u8 ['9', '9', '9'] = none ∧
    parse_u8 ['-', '0'] = none ∧
    parse_u8 ['-', '1'] = none ∧
    Program.inp (Program.new []) ['-', '0', '\n'] = none ∧
    Program.operate 1 ⟨⟨⟨0, [Operation.Input]⟩, ⟨0, [0]⟩⟩, [['7']], []⟩ =
      Res.ok ⟨⟨⟨0, [Operation.Input]⟩, ⟨0, [7]⟩⟩, [], []⟩ :=
  ⟨claim_C9_input.1 ['4', '2'] 42 (by decide),
   claim_C9_input.2.1 (Program.new []) [' ', '4', '2', '\n'] 0 42 rfl (by decide),
   claim_C9_input.2.2.1 (Program.new []) ['x', '\n'] (by decide),
   claim_C9_input.2.2.2.1 ['9', '9'] (by decide) (by decide) (by decide),
   claim_C9_input.2.2.2.2.1 ['9', '9', '9'] (by decide) (by decide) (by decide),
   claim_C9_input.2.2.2.2.2.1 ['0'],
   claim_C9_input.2.2.2.2.2.1 ['1'],
   claim_C9_input.2.2.1 (Program.new []) ['-', '0', '\n'] (by decide),
   claim_C9_input.2.2.2.2.2.2 1 ⟨⟨⟨0, [Operation.Input]⟩, ⟨0, [0]⟩⟩, [['7']], []⟩
     ['7'] [] ⟨⟨0, [Operation.Input]⟩, ⟨0, [7]⟩⟩ rfl rfl (by decide)⟩
